import Mathlib

/-!
Shallow embedding of `minesweeper.py` (the `Sentence` knowledge representation
and the `MinesweeperAI` inference engine), together with theorems settling the
frozen claims about it.

Modelling conventions:
* A board cell is an `Int × Int` pair, as in the Python `(i, j)` tuples.
* Python `set`s of cells are modelled as insertion-ordered duplicate-free
  lists; all set operations in the source are order-insensitive, and every
  list built here is duplicate-free by construction.
* Python `Sentence` *objects* are mutable and aliased (the same object can be
  reachable both from the `knowledge` list and from local variables such as
  the snapshot copies taken in `add_knowledge`).  To model this faithfully the
  engine state carries a `store` mapping object ids to current `Sentence`
  values; the `knowledge` list (`live`) is a list of ids, and snapshot copies
  are lists of ids.  Mutating a sentence object updates the store; an object
  removed from `knowledge` keeps its last value in the store, exactly like a
  Python object that is still referenced from a snapshot list.
* Machine integers are `Int` (Python ints are unbounded, so no wrap-around).
-/

abbrev Cell := Int × Int

/-- Class `Sentence` from `minesweeper.py`: a set of board cells and a count of how
many of those cells are mines. -/
structure Sentence where
  cells : List Cell
  count : Int
deriving Repr, DecidableEq

/-- Method `Sentence.known_mines`: returns the cell set if `len(cells) == count`,
else `None`. -/
def Sentence.known_mines (s : Sentence) : Option (List Cell) :=
  if (s.cells.length : Int) = s.count then some s.cells else none

/-- Method `Sentence.known_safes`: returns the cell set if `count == 0`, else
`None`. -/
def Sentence.known_safes (s : Sentence) : Option (List Cell) :=
  if s.count = 0 then some s.cells else none

/-- Method `Sentence.mark_mine`: if the cell is present, remove it and decrement the
count. -/
def Sentence.mark_mine (s : Sentence) (cell : Cell) : Sentence :=
  if cell ∈ s.cells then ⟨s.cells.erase cell, s.count - 1⟩ else s

/-- Method `Sentence.mark_safe`: if the cell is present, remove it (count
unchanged). -/
def Sentence.mark_safe (s : Sentence) (cell : Cell) : Sentence :=
  if cell ∈ s.cells then ⟨s.cells.erase cell, s.count⟩ else s

/-- Python set inclusion `a <= b` on cell sets. -/
def subsetB (a b : List Cell) : Bool :=
  a.all (fun c => decide (c ∈ b))

/-- Python strict set inclusion `a < b` on cell sets (line 242). -/
def ssubB (a b : List Cell) : Bool :=
  subsetB a b && !subsetB b a

/-- Equality `Sentence.__eq__`: cell sets equal (as sets) and counts equal. -/
def Sentence.eqb (s t : Sentence) : Bool :=
  subsetB s.cells t.cells && subsetB t.cells s.cells && decide (s.count = t.count)

/-- Adding an element to a Python set, preserving insertion order. -/
def addCell (l : List Cell) (c : Cell) : List Cell :=
  if c ∈ l then l else l ++ [c]

/-- Current value of the sentence object with the given id (empty sentence if
the id was never allocated, which never happens for ids that are used). -/
def storeGet (st : List (Nat × Sentence)) (id : Nat) : Sentence :=
  (((st.find? (fun p => p.1 = id)).map Prod.snd)).getD ⟨[], 0⟩

/-- In-place mutation of the sentence object with the given id. -/
def storeSet (st : List (Nat × Sentence)) (id : Nat) (s : Sentence) :
    List (Nat × Sentence) :=
  st.map (fun p => if p.1 = id then (id, s) else p)

/-- Class `MinesweeperAI` state: board dimensions, the three global cell sets, and
the knowledge base (`store` of sentence objects plus the list `live` of ids
currently in `self.knowledge`; `nextId` is the next fresh object id). -/
structure AI where
  height : Int
  width : Int
  moves_made : List Cell
  mines : List Cell
  safes : List Cell
  store : List (Nat × Sentence)
  live : List Nat
  nextId : Nat
deriving Repr

/-- Constructor `MinesweeperAI.__init__`. -/
def AI.init (h w : Int) : AI :=
  ⟨h, w, [], [], [], [], [], 0⟩

/-- Value of the sentence object `id`. -/
def AI.getS (ai : AI) (id : Nat) : Sentence :=
  storeGet ai.store id

/-- Call `sentence.mark_mine(cell)` applied to the object `id`. -/
def AI.objMarkMine (ai : AI) (id : Nat) (cell : Cell) : AI :=
  { ai with store := storeSet ai.store id ((ai.getS id).mark_mine cell) }

/-- Call `sentence.mark_safe(cell)` applied to the object `id`. -/
def AI.objMarkSafe (ai : AI) (id : Nat) (cell : Cell) : AI :=
  { ai with store := storeSet ai.store id ((ai.getS id).mark_safe cell) }

/-- Method `MinesweeperAI.mark_mine`: add the cell to `self.mines` and mark it in
every sentence of `self.knowledge`. -/
def AI.mark_mine (ai : AI) (cell : Cell) : AI :=
  let ai1 := { ai with mines := addCell ai.mines cell }
  ai1.live.foldl (fun a id => a.objMarkMine id cell) ai1

/-- Method `MinesweeperAI.mark_safe`: add the cell to `self.safes` and mark it in
every sentence of `self.knowledge`. -/
def AI.mark_safe (ai : AI) (cell : Cell) : AI :=
  let ai1 := { ai with safes := addCell ai.safes cell }
  ai1.live.foldl (fun a id => a.objMarkSafe id cell) ai1

/-- The 8-neighbourhood computed by `MinesweeperAI.sentence` (lines 168-179):
the scan over `i, j` within one row/column hits the 9 cells
`(cell[0]+di, cell[1]+dj)` for `di, dj ∈ {-1,0,1}`; the `(i, j) == cell` test
skips exactly the offset `(0,0)`, and the remaining 8 candidates are kept
when in bounds. -/
def neighborsList (h w : Int) (cell : Cell) : List Cell :=
  ([(cell.1 - 1, cell.2 - 1), (cell.1 - 1, cell.2), (cell.1 - 1, cell.2 + 1),
    (cell.1, cell.2 - 1), (cell.1, cell.2 + 1),
    (cell.1 + 1, cell.2 - 1), (cell.1 + 1, cell.2), (cell.1 + 1, cell.2 + 1)]
    ).filter (fun p => decide (0 ≤ p.1) && decide (p.1 < h) &&
                       decide (0 ≤ p.2) && decide (p.2 < w))

/-- Method `MinesweeperAI.sentence(cell)`. -/
def AI.sentence (ai : AI) (cell : Cell) : List Cell :=
  neighborsList ai.height ai.width cell

/-- First half of `MinesweeperAI.check` (lines 184-188): mark every cell of
`known_safes()` safe. -/
def AI.checkSafes (ai : AI) (id : Nat) : AI :=
  match (ai.getS id).known_safes with
  | some cs => cs.foldl AI.mark_safe ai
  | none => ai

/-- Second half of `MinesweeperAI.check` (lines 189-193): mark every cell of
`known_mines()` a mine.  `known_mines()` is read from the current state of
the object, which the safe-marking may have mutated when the object is in
`self.knowledge` (aliasing). -/
def AI.checkMines (ai : AI) (id : Nat) : AI :=
  match (ai.getS id).known_mines with
  | some cs => cs.foldl AI.mark_mine ai
  | none => ai

/-- Method `MinesweeperAI.check(sentence)` on the object `id` (lines 181-193). -/
def AI.check (ai : AI) (id : Nat) : AI :=
  (ai.checkSafes id).checkMines id

/-- Operation `list.remove(x)` on `self.knowledge` (by `Sentence.__eq__` value): drop
the first id whose current value equals `v`.  (Python raises if no element
matches; at the call sites in this program a matching element is present.) -/
def removeFirstEq (st : List (Nat × Sentence)) (v : Sentence) :
    List Nat → List Nat
  | [] => []
  | id :: rest =>
      if Sentence.eqb (storeGet st id) v then rest
      else id :: removeFirstEq st v rest

/-- Lines 204-211 of `add_knowledge`: iterate over a copy of the neighbour
set, discarding known safes, and discarding known mines while decrementing
the count. -/
def reduceStep (safes mines : List Cell) (acc : List Cell × Int) (i : Cell) :
    List Cell × Int :=
  if i ∈ safes then (acc.1.erase i, acc.2)
  else if i ∈ mines then (acc.1.erase i, acc.2 - 1)
  else acc

/-- The cell set and count of the sentence constructed by `add_knowledge`
from an observation (lines 202-212), given the state in which `cell` has
already been added to `self.safes`. -/
def AI.obsCellSet (ai : AI) (cell : Cell) (count : Int) : List Cell × Int :=
  let cands := ai.sentence cell
  cands.foldl (reduceStep ai.safes ai.mines) (cands, count)

/-- Lines 224-232 of the scan loop of `add_knowledge`, on the sentence
object `id` from the snapshot: a count-0 sentence yields safes, a full
sentence yields mines; each derived cell is added to the global set and
marked in this sentence only. -/
def AI.scanMark (ai : AI) (id : Nat) : AI :=
  let sent := ai.getS id
  let cpy := sent.cells
  if sent.count = 0 then
    cpy.foldl (fun a c => (({ a with safes := addCell a.safes c } : AI)).objMarkSafe id c) ai
  else if (sent.cells.length : Int) = sent.count then
    cpy.foldl (fun a c => (({ a with mines := addCell a.mines c } : AI)).objMarkMine id c) ai
  else ai

/-- Line 233-234 of the scan loop: a sentence left with no cells is removed
from `knowledge`. -/
def AI.scanStep (ai : AI) (id : Nat) : AI :=
  let ai1 := ai.scanMark id
  if (ai1.getS id).cells.length = 0 then
    { ai1 with live := removeFirstEq ai1.store (ai1.getS id) ai1.live }
  else ai1

/-- The scan loop of `add_knowledge` (lines 222-234), iterating over a
snapshot of `self.knowledge`. -/
def AI.scanPhase (ai : AI) : AI :=
  ai.live.foldl AI.scanStep ai

/-- The sentence constructed by the subset-difference inference from an
ordered pair of sentences (lines 243-245). -/
def derivedSentence (so ss : Sentence) : Sentence :=
  ⟨so.cells.filter (fun c => decide (c ∉ ss.cells)), so.count - ss.count⟩

/-- Body of the subset-difference inference (lines 243-249): build the
difference sentence from the pair of current values `(so, ss)`, remove
`ss`'s value from `knowledge` if present, append the new sentence object and
run `check` on it. -/
def AI.subsetApply (ai : AI) (so ss : Sentence) : AI :=
  let nid := ai.nextId
  let ai1 := { ai with
      store := ai.store ++ [(nid, derivedSentence so ss)],
      nextId := nid + 1 }
  let ai2 :=
    if ai1.live.any (fun i => Sentence.eqb (ai1.getS i) ss) then
      { ai1 with live := removeFirstEq ai1.store ss ai1.live }
    else ai1
  let ai3 := { ai2 with live := ai2.live ++ [nid] }
  ai3.check nid

/-- One iteration of the subset-difference loop (lines 239-242) on the
ordered pair of sentence objects `(oid, sid)`: nothing happens unless the
current values are unequal and `sid`'s cells are a strict subset of
`oid`'s. -/
def AI.subsetStep (ai : AI) (oid sid : Nat) : AI :=
  let so := ai.getS oid
  let ss := ai.getS sid
  if Sentence.eqb so ss then ai
  else if ssubB ss.cells so.cells then ai.subsetApply so ss
  else ai

/-- The subset-difference loop of `add_knowledge` (lines 235-249), iterating
over all ordered pairs from a snapshot of `self.knowledge`. -/
def AI.subsetPhase (ai : AI) : AI :=
  let cp := ai.live
  cp.foldl (fun a oid => cp.foldl (fun a2 sid => a2.subsetStep oid sid) a) ai

/-- Method `MinesweeperAI.add_knowledge(cell, count)` (lines 195-254, omitting the
diagnostic prints). -/
def AI.add_knowledge (ai : AI) (cell : Cell) (count : Int) : AI :=
  let ai1 := { ai with
      moves_made := addCell ai.moves_made cell,
      safes := addCell ai.safes cell }
  let cc := ai1.obsCellSet cell count
  let id := ai1.nextId
  let ai2 := { ai1 with
      store := ai1.store ++ [(id, (⟨cc.1, cc.2⟩ : Sentence))],
      nextId := id + 1 }
  let ai3 := ai2.check id
  let ai4 := { ai3 with live := ai3.live ++ [id] }
  let ai5 := ai4.safes.foldl AI.mark_safe ai4
  let ai6 := ai5.mines.foldl AI.mark_mine ai5
  let ai7 := ai6.scanPhase
  ai7.subsetPhase

/-- Method `MinesweeperAI.make_safe_move` (lines 257-266): some cell of `self.safes`
that is not in `self.moves_made`, or `None`. -/
def AI.make_safe_move (ai : AI) : Option Cell :=
  ai.safes.find? (fun c => decide (c ∉ ai.moves_made))

/-- The candidate list of `MinesweeperAI.make_random_move` (lines 272-277):
all board positions not known to be mines and not already played.  The
function itself returns a uniformly random element of this list (or `None`
when it is empty) and changes no state. -/
def AI.pos_moves (ai : AI) : List Cell :=
  ((List.range ai.height.toNat).flatMap (fun i =>
    (List.range ai.width.toNat).map (fun j => (((i : Int), (j : Int)) : Cell)))
    ).filter (fun m => decide (m ∉ ai.mines) && decide (m ∉ ai.moves_made))

/-- The current values of the sentences in `self.knowledge`. -/
def AI.liveSentences (ai : AI) : List Sentence :=
  ai.live.map ai.getS

/-- Run a sequence of `add_knowledge` calls from a fresh engine. -/
def runTrace (h w : Int) (obs : List (Cell × Int)) : AI :=
  obs.foldl (fun a p => a.add_knowledge p.1 p.2) (AI.init h w)

/-- Number of cells of `cs` that are mines of the board `M`. -/
def countM (M cs : List Cell) : Nat :=
  cs.countP (fun c => decide (c ∈ M))

/-- The true number of mines adjacent to `cell` on a board with mine set `M`
(what `Minesweeper.nearby_mines` reports, lines 51-73). -/
def trueCount (M : List Cell) (h w : Int) (cell : Cell) : Int :=
  (countM M (neighborsList h w cell) : Int)

/-- The precondition on a sequence of `add_knowledge` calls stated by the
spec: no cell is observed twice, every observed cell is a safe cell of the
board, and every reported count is the true number of adjacent mines. -/
def TruthfulTrace (M : List Cell) (h w : Int) (obs : List (Cell × Int)) : Prop :=
  obs.Pairwise (fun p q => p.1 ≠ q.1) ∧
  ∀ p ∈ obs, p.1 ∉ M ∧ p.2 = trueCount M h w p.1

instance (M : List Cell) (h w : Int) (obs : List (Cell × Int)) :
    Decidable (TruthfulTrace M h w obs) := by
  unfold TruthfulTrace; infer_instance

/-- All board positions of an `h × w` board. -/
def boardCells (h w : Int) : List Cell :=
  (List.range h.toNat).flatMap (fun i =>
    (List.range w.toNat).map (fun j => (((i : Int), (j : Int)) : Cell)))

/-- A mine assignment `M` is consistent with a list of observations when every
observed cell is safe in `M` and every reported count is the true count of
`M`-mines adjacent to the observed cell. -/
def consistentAssign (h w : Int) (obs : List (Cell × Int)) (M : List Cell) : Prop :=
  ∀ p ∈ obs, p.1 ∉ M ∧ p.2 = trueCount M h w p.1

instance (h w : Int) (obs : List (Cell × Int)) (M : List Cell) :
    Decidable (consistentAssign h w obs M) := by
  unfold consistentAssign; infer_instance

/-- The mine status of `c` is logically derivable from the observations: `c`
is a mine under every consistent assignment of mines to board cells. -/
def derivableMine (h w : Int) (obs : List (Cell × Int)) (c : Cell) : Prop :=
  ∀ M ∈ (boardCells h w).sublists, consistentAssign h w obs M → c ∈ M

instance (h w : Int) (obs : List (Cell × Int)) (c : Cell) :
    Decidable (derivableMine h w obs c) := by
  unfold derivableMine; infer_instance

/-- A concrete board: `2 × 4`, mines at `(1,1)` and `(1,3)`. -/
def mCex : List Cell := [(1, 1), (1, 3)]

/-- Observations of the safe cells `(0,1)`, `(0,3)`, `(0,0)` of that board,
each with its true adjacent-mine count (`1` in all three cases). -/
def obsCex : List (Cell × Int) := [((0, 1), 1), ((0, 3), 1), ((0, 0), 1)]

set_option maxRecDepth 100000 in
/-- Claim C1: the code violates it.  The observation sequence `obsCex` on the
`2 × 4` board `mCex` satisfies the stated precondition (cells pairwise
distinct, all safe, counts truthful), and after the three `add_knowledge`
calls the mine status of cell `(1,3)` is logically derivable from the
observations (it is a mine under every consistent assignment; the knowledge
base even holds the sentence `{(1,3)} = 1`), yet `(1,3)` is not in `mines` —
`add_knowledge` returned without completing fixed-point propagation. -/
theorem addKnowledge_misses_forced_mine :
    TruthfulTrace mCex 2 4 obsCex ∧
    derivableMine 2 4 obsCex (1, 3) ∧
    (1, 3) ∉ (runTrace 2 4 obsCex).mines ∧
    Sentence.mk [(1, 3)] 1 ∈ (runTrace 2 4 obsCex).liveSentences := by
  decide

set_option maxRecDepth 100000 in
/-- Claim C2: the code violates it.  After the third `add_knowledge` call of the
truthful observation sequence `obsCex`, the knowledge list still contains a
sentence whose cell set is empty (the subset-difference step derived
`{(1,2)} = 0`, `check` then emptied it in place, and no removal follows). -/
theorem addKnowledge_leaves_empty_sentence :
    TruthfulTrace mCex 2 4 obsCex ∧
    ∃ s ∈ (runTrace 2 4 obsCex).liveSentences, s.cells = [] := by
  decide

/-- Sentence `A = {(0,0),(0,1),(0,2)} = 1` of the subset-inference scenario. -/
def sentA : Sentence := ⟨[(0, 0), (0, 1), (0, 2)], 1⟩

/-- Sentence `B = {(0,0),(0,1)} = 1` of the subset-inference scenario. -/
def sentB : Sentence := ⟨[(0, 0), (0, 1)], 1⟩

/-- An engine state whose knowledge list holds exactly the sentence objects
`A` and `B`. -/
def stateAB : AI := ⟨3, 3, [], [], [], [(0, sentA), (1, sentB)], [0, 1], 2⟩

set_option maxRecDepth 100000 in
/-- Claim C3: with sentences `A = {(0,0),(0,1),(0,2)} = 1` and
`B = {(0,0),(0,1)} = 1` in the knowledge list, the subset-difference step
derives exactly the sentence `{(0,2)} = 0` from the pair `(A, B)`, and running
the step adds `(0,2)` to `safes`. -/
theorem subset_difference_scenario :
    sentA ≠ sentB ∧
    derivedSentence sentA sentB = ⟨[(0, 2)], 0⟩ ∧
    (0, 2) ∈ (stateAB.subsetPhase).safes := by
  decide


/-- Claim C10: for the empty sentence (no cells, count 0), `known_mines`
returns the empty set rather than `None`, and so does `known_safes`. -/
theorem empty_sentence_known_queries :
    Sentence.known_mines ⟨[], 0⟩ = some [] ∧
    Sentence.known_safes ⟨[], 0⟩ = some [] := by
  decide

/-- Generic preservation of a predicate along a left fold. -/
theorem foldl_preserve {α β : Type} {P : β → Prop} {f : β → α → β} :
    ∀ l : List α, (∀ a x, x ∈ l → P a → P (f a x)) → ∀ a, P a → P (l.foldl f a)
  | [], _, _, ha => ha
  | x :: xs, h, a, ha =>
      foldl_preserve xs (fun b y hy => h b y (List.mem_cons_of_mem x hy))
        (f a x) (h a x (List.mem_cons_self x xs) ha)

/-- The three global cell sets of `b` each contain those of `a`, and the
board dimensions agree. -/
def Expands (a b : AI) : Prop :=
  a.safes ⊆ b.safes ∧ a.mines ⊆ b.mines ∧ a.moves_made ⊆ b.moves_made ∧
  a.height = b.height ∧ a.width = b.width

theorem Expands.rfl {a : AI} : Expands a a :=
  ⟨List.Subset.refl _, List.Subset.refl _, List.Subset.refl _, Eq.refl _, Eq.refl _⟩

theorem Expands.trans {a b c : AI} (h1 : Expands a b) (h2 : Expands b c) :
    Expands a c :=
  ⟨h1.1.trans h2.1, h1.2.1.trans h2.2.1, h1.2.2.1.trans h2.2.2.1,
   h1.2.2.2.1.trans h2.2.2.2.1, h1.2.2.2.2.trans h2.2.2.2.2⟩

theorem subset_addCell (l : List Cell) (c : Cell) : l ⊆ addCell l c := by
  unfold addCell
  split
  · exact List.Subset.refl l
  · exact List.subset_append_left l [c]

theorem mem_addCell {l : List Cell} {c x : Cell} :
    x ∈ addCell l c ↔ x ∈ l ∨ x = c := by
  unfold addCell
  split
  · rename_i h
    constructor
    · exact Or.inl
    · rintro (hx | rfl)
      · exact hx
      · exact h
  · simp

theorem self_mem_addCell (l : List Cell) (c : Cell) : c ∈ addCell l c :=
  mem_addCell.mpr (Or.inr rfl)

theorem expands_foldl {α : Type} {f : AI → α → AI}
    (h : ∀ a x, Expands a (f a x)) : ∀ (l : List α) (a : AI),
    Expands a (l.foldl f a)
  | [], _ => Expands.rfl
  | x :: xs, a => (h a x).trans (expands_foldl h xs (f a x))

theorem expands_objMarkSafe (ai : AI) (id : Nat) (c : Cell) :
    Expands ai (ai.objMarkSafe id c) :=
  ⟨List.Subset.refl _, List.Subset.refl _, List.Subset.refl _, rfl, rfl⟩

theorem expands_objMarkMine (ai : AI) (id : Nat) (c : Cell) :
    Expands ai (ai.objMarkMine id c) :=
  ⟨List.Subset.refl _, List.Subset.refl _, List.Subset.refl _, rfl, rfl⟩

theorem expands_mark_safe (ai : AI) (c : Cell) : Expands ai (ai.mark_safe c) := by
  simp only [AI.mark_safe]
  exact Expands.trans
    (⟨subset_addCell _ _, List.Subset.refl _, List.Subset.refl _, rfl, rfl⟩ :
      Expands ai { ai with safes := addCell ai.safes c })
    (expands_foldl (fun a id => expands_objMarkSafe a id c) _ _)

theorem expands_mark_mine (ai : AI) (c : Cell) : Expands ai (ai.mark_mine c) := by
  simp only [AI.mark_mine]
  exact Expands.trans
    (⟨List.Subset.refl _, subset_addCell _ _, List.Subset.refl _, rfl, rfl⟩ :
      Expands ai { ai with mines := addCell ai.mines c })
    (expands_foldl (fun a id => expands_objMarkMine a id c) _ _)

theorem expands_checkSafes (ai : AI) (id : Nat) : Expands ai (ai.checkSafes id) := by
  unfold AI.checkSafes
  cases (ai.getS id).known_safes with
  | none => exact Expands.rfl
  | some cs => exact expands_foldl expands_mark_safe cs ai

theorem expands_checkMines (ai : AI) (id : Nat) : Expands ai (ai.checkMines id) := by
  unfold AI.checkMines
  cases (ai.getS id).known_mines with
  | none => exact Expands.rfl
  | some cs => exact expands_foldl expands_mark_mine cs ai

theorem expands_check (ai : AI) (id : Nat) : Expands ai (ai.check id) :=
  (expands_checkSafes ai id).trans (expands_checkMines (ai.checkSafes id) id)

theorem expands_scanSafeStep (id : Nat) (a : AI) (c : Cell) :
    Expands a (AI.objMarkSafe { a with safes := addCell a.safes c } id c) :=
  ⟨subset_addCell _ _, List.Subset.refl _, List.Subset.refl _, rfl, rfl⟩

theorem expands_scanMineStep (id : Nat) (a : AI) (c : Cell) :
    Expands a (AI.objMarkMine { a with mines := addCell a.mines c } id c) :=
  ⟨List.Subset.refl _, subset_addCell _ _, List.Subset.refl _, rfl, rfl⟩

theorem expands_scanMark (ai : AI) (id : Nat) : Expands ai (ai.scanMark id) := by
  simp only [AI.scanMark]
  split
  · exact expands_foldl (expands_scanSafeStep id) _ _
  · split
    · exact expands_foldl (expands_scanMineStep id) _ _
    · exact Expands.rfl

theorem expands_scanStep (ai : AI) (id : Nat) : Expands ai (ai.scanStep id) := by
  simp only [AI.scanStep]
  split
  · exact (expands_scanMark ai id).trans
      ⟨List.Subset.refl _, List.Subset.refl _, List.Subset.refl _, rfl, rfl⟩
  · exact expands_scanMark ai id

theorem expands_subsetApply (ai : AI) (so ss : Sentence) :
    Expands ai (ai.subsetApply so ss) := by
  simp only [AI.subsetApply]
  refine Expands.trans ?_ (expands_check _ _)
  split
  · exact ⟨List.Subset.refl _, List.Subset.refl _, List.Subset.refl _, rfl, rfl⟩
  · exact ⟨List.Subset.refl _, List.Subset.refl _, List.Subset.refl _, rfl, rfl⟩

theorem expands_subsetStep (ai : AI) (oid sid : Nat) :
    Expands ai (ai.subsetStep oid sid) := by
  simp only [AI.subsetStep]
  split
  · exact Expands.rfl
  · split
    · exact expands_subsetApply _ _ _
    · exact Expands.rfl

theorem expands_scanPhase (ai : AI) : Expands ai ai.scanPhase := by
  unfold AI.scanPhase
  exact expands_foldl expands_scanStep _ _

theorem expands_subsetPhase (ai : AI) : Expands ai ai.subsetPhase := by
  unfold AI.subsetPhase
  exact expands_foldl
    (fun a oid => expands_foldl (fun a2 sid => expands_subsetStep a2 oid sid) _ _) _ _

theorem expands_add_knowledge (ai : AI) (cell : Cell) (count : Int) :
    Expands ai (ai.add_knowledge cell count) := by
  simp only [AI.add_knowledge]
  refine Expands.trans ?_ (expands_subsetPhase _)
  refine Expands.trans ?_ (expands_scanPhase _)
  refine Expands.trans ?_ (expands_foldl expands_mark_mine _ _)
  refine Expands.trans ?_ (expands_foldl expands_mark_safe _ _)
  refine Expands.trans ?_
    (⟨List.Subset.refl _, List.Subset.refl _, List.Subset.refl _, rfl, rfl⟩ :
      Expands _ _)
  refine Expands.trans ?_ (expands_check _ _)
  refine Expands.trans ?_
    (⟨List.Subset.refl _, List.Subset.refl _, List.Subset.refl _, rfl, rfl⟩ :
      Expands _ _)
  exact ⟨subset_addCell _ _, List.Subset.refl _, subset_addCell _ _, rfl, rfl⟩

/-- Claim C7: every state-mutating operation of the engine only ever adds to
the `safes`, `mines` and `moves_made` sets (and `make_safe_move` and
`make_random_move` read state without modifying it, so the sets are
monotone across every sequence of operations). -/
theorem state_sets_monotone (ai : AI) (cell : Cell) (count : Int) :
    Expands ai (ai.add_knowledge cell count) ∧
    Expands ai (ai.mark_safe cell) ∧
    Expands ai (ai.mark_mine cell) :=
  ⟨expands_add_knowledge ai cell count, expands_mark_safe ai cell,
    expands_mark_mine ai cell⟩

/-- The discard condition of lines 207-210: the neighbour is already known
safe or known mine. -/
def dropB (safes mines : List Cell) (i : Cell) : Bool :=
  decide (i ∈ safes) || decide (i ∈ mines)

/-- The decrement condition of lines 209-211: the neighbour is discarded as a
known mine (and was not already discarded as a known safe). -/
def badB (safes mines : List Cell) (i : Cell) : Bool :=
  !decide (i ∈ safes) && decide (i ∈ mines)

/-- Characterisation of the discard loop of lines 204-211: folding
`reduceStep` over a duplicate-free list of pending cells contained in the
current cell set filters out the pending cells that are known safe or known
mine, and decrements the count once per discarded known mine. -/
theorem reduce_foldl_char (safes mines : List Cell) :
    ∀ (todo : List Cell) (acc : List Cell × Int), acc.1.Nodup → todo.Nodup →
      todo ⊆ acc.1 →
      todo.foldl (reduceStep safes mines) acc
        = (acc.1.filter (fun i => !(decide (i ∈ todo) && dropB safes mines i)),
           acc.2 - (todo.countP (badB safes mines) : Int)) := by
  intro todo
  induction todo with
  | nil =>
      intro acc _ _ _
      simp [dropB]
  | cons t rest ih =>
      intro acc h1 h2 h3
      have htr : t ∉ rest := (List.nodup_cons.mp h2).1
      have hrest : rest.Nodup := (List.nodup_cons.mp h2).2
      have hsub : rest ⊆ acc.1.erase t := by
        intro x hx
        have hxt : x ≠ t := by
          intro he
          subst he
          exact htr hx
        exact (List.mem_erase_of_ne hxt).mpr (h3 (List.mem_cons_of_mem t hx))
      rw [List.foldl_cons]
      by_cases hs : t ∈ safes
      · have hstep : reduceStep safes mines acc t = (acc.1.erase t, acc.2) := by
          simp [reduceStep, hs]
        rw [hstep, ih (acc.1.erase t, acc.2) (h1.erase t) hrest hsub]
        refine Prod.ext_iff.mpr ⟨?_, ?_⟩
        · show (acc.1.erase t).filter _ = acc.1.filter _
          rw [h1.erase_eq_filter t, List.filter_filter]
          apply List.filter_congr
          intro x hx
          by_cases hxt : x = t
          · subst hxt
            simp [dropB, hs]
          · simp [List.mem_cons, hxt]
        · show acc.2 - _ = acc.2 - _
          simp [List.countP_cons, badB, hs]
      · by_cases hm : t ∈ mines
        · have hstep : reduceStep safes mines acc t = (acc.1.erase t, acc.2 - 1) := by
            simp [reduceStep, hs, hm]
          rw [hstep, ih (acc.1.erase t, acc.2 - 1) (h1.erase t) hrest hsub]
          refine Prod.ext_iff.mpr ⟨?_, ?_⟩
          · show (acc.1.erase t).filter _ = acc.1.filter _
            rw [h1.erase_eq_filter t, List.filter_filter]
            apply List.filter_congr
            intro x hx
            by_cases hxt : x = t
            · subst hxt
              simp [dropB, hm]
            · simp [List.mem_cons, hxt]
          · show acc.2 - 1 - _ = acc.2 - _
            rw [List.countP_cons]
            simp [badB, hs, hm]
            ring
        · have hstep : reduceStep safes mines acc t = acc := by
            simp [reduceStep, hs, hm]
          rw [hstep, ih acc h1 hrest
            (fun x hx => h3 (List.mem_cons_of_mem t hx))]
          refine Prod.ext_iff.mpr ⟨?_, ?_⟩
          · apply List.filter_congr
            intro x hx
            by_cases hxt : x = t
            · subst hxt
              simp [dropB, hs, hm, htr]
            · simp [List.mem_cons, hxt]
          · show acc.2 - _ = acc.2 - _
            simp [List.countP_cons, badB, hs, hm]

theorem nodup_neighborsList (h w : Int) (cell : Cell) :
    (neighborsList h w cell).Nodup := by
  apply List.Nodup.filter
  simp [List.nodup_cons, Prod.ext_iff]
  omega

/-- The sentence constructed from an observation: the in-bounds neighbours
that are neither known safe nor known mine, and the reported count minus one
per known-mine neighbour that was discarded as a mine. -/
theorem obsCellSet_char (ai : AI) (cell : Cell) (count : Int) :
    ai.obsCellSet cell count
      = ((ai.sentence cell).filter (fun i => !dropB ai.safes ai.mines i),
         count - ((ai.sentence cell).countP (badB ai.safes ai.mines) : Int)) := by
  simp only [AI.obsCellSet]
  rw [reduce_foldl_char ai.safes ai.mines (ai.sentence cell)
      ((ai.sentence cell), count) (nodup_neighborsList _ _ _)
      (nodup_neighborsList _ _ _) (List.Subset.refl _)]
  refine Prod.ext_iff.mpr ⟨?_, rfl⟩
  apply List.filter_congr
  intro x hx
  simp [hx]

/-- Modelled from the claim text: `c` is an in-bounds 8-neighbour of `cell`
(excluding `cell` itself, rows and columns clipped to
`[0, height) × [0, width)`). -/
def inBoundsNeighbor (h w : Int) (cell c : Cell) : Prop :=
  c ≠ cell ∧ cell.1 - 1 ≤ c.1 ∧ c.1 ≤ cell.1 + 1 ∧ cell.2 - 1 ≤ c.2 ∧
  c.2 ≤ cell.2 + 1 ∧ 0 ≤ c.1 ∧ c.1 < h ∧ 0 ≤ c.2 ∧ c.2 < w

instance (h w : Int) (cell c : Cell) : Decidable (inBoundsNeighbor h w cell c) := by
  unfold inBoundsNeighbor
  infer_instance

theorem mem_neighborsList (h w : Int) (cell c : Cell) :
    c ∈ neighborsList h w cell ↔ inBoundsNeighbor h w cell c := by
  simp [neighborsList, inBoundsNeighbor, Prod.ext_iff]
  omega

/-- The engine state reached inside `add_knowledge((0,0), count)` on a fresh
8×8 engine, once `(0,0)` has been added to `moves_made` and `safes`. -/
def cornerAI : AI :=
  { AI.init 8 8 with moves_made := [(0, 0)], safes := [(0, 0)] }

/-- Claim C6: the sentence constructed by `add_knowledge(cell, count)` has as
its cells exactly the in-bounds 8-neighbours of `cell` that are neither in
`safes` nor in `mines`, and as its count the given count minus the number of
known-mine neighbours (stated for any state whose `safes` and `mines` are
disjoint, which the discard loop's safe-before-mine ordering requires for the
mine count to be exactly the discarded mines); in particular, for corner cell
`(0,0)` on a fresh 8×8 board the constructed neighbour set has exactly 3
cells. -/
theorem obs_sentence_spec (ai : AI) (cell : Cell) (count : Int)
    (hdisj : ∀ c ∈ ai.safes, c ∉ ai.mines) :
    (∀ c, c ∈ (ai.obsCellSet cell count).1 ↔
      inBoundsNeighbor ai.height ai.width cell c ∧ c ∉ ai.safes ∧ c ∉ ai.mines) ∧
    (ai.obsCellSet cell count).2
      = count - ((ai.sentence cell).countP (fun c => decide (c ∈ ai.mines)) : Int) ∧
    ((cornerAI.obsCellSet (0, 0) 1).1).length = 3 := by
  refine ⟨?_, ?_, by decide⟩
  · intro c
    rw [obsCellSet_char, List.mem_filter]
    have hmem : c ∈ AI.sentence ai cell ↔ inBoundsNeighbor ai.height ai.width cell c :=
      mem_neighborsList ai.height ai.width cell c
    rw [hmem]
    simp [dropB, not_or, and_assoc]
  · rw [obsCellSet_char]
    have hcong : (ai.sentence cell).countP (badB ai.safes ai.mines)
        = (ai.sentence cell).countP (fun c => decide (c ∈ ai.mines)) := by
      apply List.countP_congr
      intro x hx
      by_cases h2 : x ∈ ai.mines
      · have h1 : x ∉ ai.safes := fun hs => hdisj x hs h2
        simp [badB, h2, h1]
      · simp [badB, h2]
    rw [hcong]

/-- Witness for `obs_sentence_spec` at the concrete state `cornerAI`. -/
theorem obs_sentence_spec_witness :
    (0, 1) ∈ (cornerAI.obsCellSet (0, 0) 1).1 ↔
      inBoundsNeighbor cornerAI.height cornerAI.width (0, 0) (0, 1) ∧
      (0, 1) ∉ cornerAI.safes ∧ (0, 1) ∉ cornerAI.mines :=
  (obs_sentence_spec cornerAI (0, 0) 1 (by decide)).1 (0, 1)

/-- Claim C8: `make_safe_move` returns a cell of `safes` not in `moves_made`
whenever one exists, and returns `none` when no such cell exists.  It is a
pure read of the state (the embedding gives it type `AI → Option Cell`; the
source touches no attribute), so it modifies no engine state. -/
theorem make_safe_move_spec (ai : AI) :
    (∀ c, c ∈ ai.safes → c ∉ ai.moves_made →
      ∃ r, ai.make_safe_move = some r ∧ r ∈ ai.safes ∧ r ∉ ai.moves_made) ∧
    ((∀ c ∈ ai.safes, c ∈ ai.moves_made) → ai.make_safe_move = none) := by
  constructor
  · intro c hc hm
    cases hfind : ai.make_safe_move with
    | none =>
        exfalso
        unfold AI.make_safe_move at hfind
        rw [List.find?_eq_none] at hfind
        have hcontra := hfind c hc
        simp only [decide_eq_true_eq, Decidable.not_not] at hcontra
        exact hm hcontra
    | some r =>
        have hfind2 : ai.safes.find? (fun c => decide (c ∉ ai.moves_made)) = some r := hfind
        refine ⟨r, rfl, List.mem_of_find?_eq_some hfind2, ?_⟩
        have hr := List.find?_some hfind2
        simpa using hr
  · intro hall
    unfold AI.make_safe_move
    rw [List.find?_eq_none]
    intro x hx
    simp only [decide_eq_true_eq, Decidable.not_not]
    exact hall x hx

/-- A state with a known safe cell that has not been played. -/
def aiMoveW : AI := ⟨2, 2, [], [], [(0, 0)], [], [], 0⟩

/-- A state whose only known safe cell has already been played. -/
def aiMoveW2 : AI := ⟨2, 2, [(0, 0)], [], [(0, 0)], [], [], 0⟩

/-- Witness for `make_safe_move_spec` at two concrete states. -/
theorem make_safe_move_spec_witness :
    (∃ r, aiMoveW.make_safe_move = some r ∧ r ∈ aiMoveW.safes ∧
      r ∉ aiMoveW.moves_made) ∧
    aiMoveW2.make_safe_move = none :=
  ⟨(make_safe_move_spec aiMoveW).1 (0, 0) (by decide) (by decide),
   (make_safe_move_spec aiMoveW2).2 (by decide)⟩

theorem countM_le_length (M cs : List Cell) : countM M cs ≤ cs.length :=
  List.countP_le_length _

theorem countM_eq_zero {M cs : List Cell} :
    countM M cs = 0 ↔ ∀ c ∈ cs, c ∉ M := by
  simp [countM, List.countP_eq_zero]

theorem countM_eq_length {M cs : List Cell} :
    countM M cs = cs.length ↔ ∀ c ∈ cs, c ∈ M := by
  simp [countM, List.countP_eq_length]

theorem countM_erase_of_not_mem_M (M : List Cell) {c : Cell} (hM : c ∉ M) :
    ∀ cs : List Cell, countM M (cs.erase c) = countM M cs := by
  intro cs
  induction cs with
  | nil => rfl
  | cons a l ih =>
      by_cases hac : a = c
      · subst hac
        rw [List.erase_cons_head]
        simp [countM, List.countP_cons, hM]
      · rw [List.erase_cons_tail]
        · simp only [countM, List.countP_cons] at *
          omega
        · simp [hac]

theorem countM_erase_mem (M : List Cell) {c : Cell} (hM : c ∈ M) :
    ∀ cs : List Cell, cs.Nodup → c ∈ cs →
      (countM M (cs.erase c) : Int) = (countM M cs : Int) - 1 := by
  intro cs
  induction cs with
  | nil => intro _ hc; cases hc
  | cons a l ih =>
      intro hnd hc
      by_cases hac : a = c
      · subst hac
        rw [List.erase_cons_head]
        simp [countM, List.countP_cons, hM]
      · have hcl : c ∈ l := by
          cases List.mem_cons.mp hc with
          | inl h => exact absurd h.symm hac
          | inr h => exact h
        rw [List.erase_cons_tail]
        · have hrec := ih (List.nodup_cons.mp hnd).2 hcl
          simp only [countM, List.countP_cons] at *
          omega
        · simp [hac]

/-- The sentence `s` is true of the board with mine set `M`: its cell list is
duplicate-free and its count is exactly the number of `M`-mines among its
cells. -/
def SValid (M : List Cell) (s : Sentence) : Prop :=
  s.cells.Nodup ∧ (countM M s.cells : Int) = s.count

/-- Soundness invariant tying an engine state to the board with mine set
`M`: every known safe is not a mine, every known mine is a mine, and every
sentence object ever allocated is true of `M` (objects removed from
`knowledge` are frozen, so they remain true). -/
def Valid (M : List Cell) (ai : AI) : Prop :=
  (∀ c ∈ ai.safes, c ∉ M) ∧ (∀ c ∈ ai.mines, c ∈ M) ∧
  (∀ p ∈ ai.store, SValid M p.2)

theorem SValid.safeMark {M : List Cell} {s : Sentence} {c : Cell}
    (h : SValid M s) (hc : c ∉ M) : SValid M (s.mark_safe c) := by
  unfold Sentence.mark_safe
  split
  · exact ⟨h.1.erase c, by rw [countM_erase_of_not_mem_M M hc]; exact h.2⟩
  · exact h

theorem SValid.mineMark {M : List Cell} {s : Sentence} {c : Cell}
    (h : SValid M s) (hc : c ∈ M) : SValid M (s.mark_mine c) := by
  unfold Sentence.mark_mine
  split
  · rename_i hmem
    refine ⟨h.1.erase c, ?_⟩
    show (countM M (s.cells.erase c) : Int) = s.count - 1
    rw [countM_erase_mem M hc s.cells h.1 hmem, h.2]
  · exact h

theorem valid_getS {M : List Cell} {ai : AI} (h : Valid M ai) (id : Nat) :
    SValid M (ai.getS id) := by
  unfold AI.getS storeGet
  cases hf : ai.store.find? (fun p => p.1 = id) with
  | none => exact ⟨List.nodup_nil, rfl⟩
  | some p =>
      simp only [Option.map_some', Option.getD_some]
      exact h.2.2 p (List.mem_of_find?_eq_some hf)

theorem Valid.objMarkSafe {M : List Cell} {ai : AI} (h : Valid M ai)
    (id : Nat) {c : Cell} (hc : c ∉ M) : Valid M (ai.objMarkSafe id c) := by
  refine ⟨h.1, h.2.1, ?_⟩
  intro p hp
  simp only [AI.objMarkSafe, storeSet, List.mem_map] at hp
  obtain ⟨q, hq, rfl⟩ := hp
  by_cases hqid : q.1 = id
  · simp only [hqid, if_pos rfl]
    exact (valid_getS h id).safeMark hc
  · simp only [if_neg hqid]
    exact h.2.2 q hq

theorem Valid.objMarkMine {M : List Cell} {ai : AI} (h : Valid M ai)
    (id : Nat) {c : Cell} (hc : c ∈ M) : Valid M (ai.objMarkMine id c) := by
  refine ⟨h.1, h.2.1, ?_⟩
  intro p hp
  simp only [AI.objMarkMine, storeSet, List.mem_map] at hp
  obtain ⟨q, hq, rfl⟩ := hp
  by_cases hqid : q.1 = id
  · simp only [hqid, if_pos rfl]
    exact (valid_getS h id).mineMark hc
  · simp only [if_neg hqid]
    exact h.2.2 q hq

theorem Valid.markSafe {M : List Cell} {ai : AI} (h : Valid M ai) {c : Cell}
    (hc : c ∉ M) : Valid M (ai.mark_safe c) := by
  simp only [AI.mark_safe]
  have h1 : Valid M { ai with safes := addCell ai.safes c } := by
    refine ⟨?_, h.2.1, h.2.2⟩
    intro x hx
    rcases mem_addCell.mp hx with hx | rfl
    · exact h.1 x hx
    · exact hc
  exact foldl_preserve _ (fun a id _ ha => ha.objMarkSafe id hc) _ h1

theorem Valid.markMine {M : List Cell} {ai : AI} (h : Valid M ai) {c : Cell}
    (hc : c ∈ M) : Valid M (ai.mark_mine c) := by
  simp only [AI.mark_mine]
  have h1 : Valid M { ai with mines := addCell ai.mines c } := by
    refine ⟨h.1, ?_, h.2.2⟩
    intro x hx
    rcases mem_addCell.mp hx with hx | rfl
    · exact h.2.1 x hx
    · exact hc
  exact foldl_preserve _ (fun a id _ ha => ha.objMarkMine id hc) _ h1

theorem Valid.checkSafes {M : List Cell} {ai : AI} (h : Valid M ai) (id : Nat) :
    Valid M (ai.checkSafes id) := by
  unfold AI.checkSafes
  cases hks : (ai.getS id).known_safes with
  | none => exact h
  | some cs =>
      have hsv := valid_getS h id
      unfold Sentence.known_safes at hks
      split at hks
      · rename_i hcnt
        injection hks with hcs
        subst hcs
        have hz : countM M (ai.getS id).cells = 0 := by
          have h2 := hsv.2
          omega
        have hall := countM_eq_zero.mp hz
        exact foldl_preserve _ (fun a x hx ha => ha.markSafe (hall x hx)) _ h
      · cases hks

theorem Valid.checkMines {M : List Cell} {ai : AI} (h : Valid M ai) (id : Nat) :
    Valid M (ai.checkMines id) := by
  unfold AI.checkMines
  cases hks : (ai.getS id).known_mines with
  | none => exact h
  | some cs =>
      have hsv := valid_getS h id
      unfold Sentence.known_mines at hks
      split at hks
      · rename_i hcnt
        injection hks with hcs
        subst hcs
        have hl : countM M (ai.getS id).cells = (ai.getS id).cells.length := by
          have h2 := hsv.2
          have h3 := countM_le_length M (ai.getS id).cells
          omega
        have hall := countM_eq_length.mp hl
        exact foldl_preserve _ (fun a x hx ha => ha.markMine (hall x hx)) _ h
      · cases hks

theorem Valid.check {M : List Cell} {ai : AI} (h : Valid M ai) (id : Nat) :
    Valid M (ai.check id) :=
  (h.checkSafes id).checkMines id

theorem Valid.scanMark {M : List Cell} {ai : AI} (h : Valid M ai) (id : Nat) :
    Valid M (ai.scanMark id) := by
  simp only [AI.scanMark]
  split
  · rename_i hcnt
    have hsv := valid_getS h id
    have hz : countM M (ai.getS id).cells = 0 := by
      have h2 := hsv.2
      omega
    have hall := countM_eq_zero.mp hz
    refine foldl_preserve _ ?_ _ h
    intro a x hx ha
    have ha1 : Valid M { a with safes := addCell a.safes x } := by
      refine ⟨?_, ha.2.1, ha.2.2⟩
      intro y hy
      rcases mem_addCell.mp hy with hy | hyx
      · exact ha.1 y hy
      · rw [hyx]
        exact hall x hx
    exact ha1.objMarkSafe id (hall x hx)
  · split
    · rename_i hcnt hlen
      have hsv := valid_getS h id
      have hl : countM M (ai.getS id).cells = (ai.getS id).cells.length := by
        have h2 := hsv.2
        have h3 := countM_le_length M (ai.getS id).cells
        omega
      have hall := countM_eq_length.mp hl
      refine foldl_preserve _ ?_ _ h
      intro a x hx ha
      have ha1 : Valid M { a with mines := addCell a.mines x } := by
        refine ⟨ha.1, ?_, ha.2.2⟩
        intro y hy
        rcases mem_addCell.mp hy with hy | hyx
        · exact ha.2.1 y hy
        · rw [hyx]
          exact hall x hx
      exact ha1.objMarkMine id (hall x hx)
    · exact h

theorem Valid.scanStep {M : List Cell} {ai : AI} (h : Valid M ai) (id : Nat) :
    Valid M (ai.scanStep id) := by
  simp only [AI.scanStep]
  split
  · exact h.scanMark id
  · exact h.scanMark id

theorem Valid.scanPhase {M : List Cell} {ai : AI} (h : Valid M ai) :
    Valid M ai.scanPhase := by
  unfold AI.scanPhase
  exact foldl_preserve _ (fun a id _ ha => ha.scanStep id) _ h

theorem countP_split {α : Type} (p q : α → Bool) :
    ∀ l : List α,
      l.countP p = (l.countP fun a => p a && q a)
        + (l.countP fun a => p a && !q a)
  | [] => rfl
  | x :: xs => by
      rw [List.countP_cons, List.countP_cons, List.countP_cons,
        countP_split p q xs]
      cases hp : p x <;> cases hq : q x <;> simp [hp, hq] <;> omega

theorem subsetB_iff {a b : List Cell} : subsetB a b = true ↔ ∀ x ∈ a, x ∈ b := by
  simp [subsetB]

/-- The subset-difference sentence is true whenever both inputs are true and
the subtrahend's cells are contained in the minuend's. -/
theorem SValid.derived {M : List Cell} {so ss : Sentence} (hso : SValid M so)
    (hss : SValid M ss) (hsub : ∀ x ∈ ss.cells, x ∈ so.cells) :
    SValid M (derivedSentence so ss) := by
  refine ⟨hso.1.filter _, ?_⟩
  show (countM M (so.cells.filter fun c => decide (c ∉ ss.cells)) : Int)
    = so.count - ss.count
  have hperm : (so.cells.filter fun c => decide (c ∈ ss.cells)).Perm ss.cells := by
    rw [List.perm_ext_iff_of_nodup (hso.1.filter _) hss.1]
    intro a
    simp only [List.mem_filter, decide_eq_true_eq]
    exact ⟨fun hx => hx.2, fun hx => ⟨hsub a hx, hx⟩⟩
  have hc1 : countM M (so.cells.filter fun c => decide (c ∈ ss.cells))
      = countM M ss.cells := List.Perm.countP_eq _ hperm
  have hf1 : countM M (so.cells.filter fun c => decide (c ∉ ss.cells))
      = so.cells.countP (fun c => decide (c ∈ M) && !decide (c ∈ ss.cells)) := by
    unfold countM
    rw [List.countP_filter]
    apply List.countP_congr
    intro x hx
    simp
  have hf2 : countM M (so.cells.filter fun c => decide (c ∈ ss.cells))
      = so.cells.countP (fun c => decide (c ∈ M) && decide (c ∈ ss.cells)) := by
    unfold countM
    rw [List.countP_filter]
  have hsplit := countP_split (fun c => decide (c ∈ M))
    (fun c => decide (c ∈ ss.cells)) so.cells
  have h2 := hso.2
  have h3 := hss.2
  unfold countM at *
  omega

theorem Valid.subsetApply {M : List Cell} {ai : AI} (h : Valid M ai)
    {so ss : Sentence} (hso : SValid M so) (hss : SValid M ss)
    (hsub : ssubB ss.cells so.cells = true) : Valid M (ai.subsetApply so ss) := by
  have hsub' : ∀ x ∈ ss.cells, x ∈ so.cells := by
    unfold ssubB at hsub
    rw [Bool.and_eq_true] at hsub
    exact subsetB_iff.mp hsub.1
  have hder := SValid.derived hso hss hsub'
  have h1 : Valid M { ai with
      store := ai.store ++ [(ai.nextId, derivedSentence so ss)],
      nextId := ai.nextId + 1 } := by
    refine ⟨h.1, h.2.1, ?_⟩
    intro p hp
    rcases List.mem_append.mp hp with hp | hp
    · exact h.2.2 p hp
    · simp only [List.mem_singleton] at hp
      subst hp
      exact hder
  simp only [AI.subsetApply]
  apply Valid.check
  split
  · exact h1
  · exact h1

theorem Valid.subsetStep {M : List Cell} {ai : AI} (h : Valid M ai)
    (oid sid : Nat) : Valid M (ai.subsetStep oid sid) := by
  simp only [AI.subsetStep]
  split
  · exact h
  · split
    · rename_i hss
      exact h.subsetApply (valid_getS h oid) (valid_getS h sid) hss
    · exact h

theorem Valid.subsetPhase {M : List Cell} {ai : AI} (h : Valid M ai) :
    Valid M ai.subsetPhase := by
  unfold AI.subsetPhase
  exact foldl_preserve _
    (fun a oid _ ha =>
      foldl_preserve _ (fun a2 sid _ ha2 => ha2.subsetStep oid sid) _ ha) _ h

/-- Counting identity behind the observation sentence: discarding known
safes and known mines from the neighbourhood loses exactly one `M`-mine per
discarded known mine, provided known safes are never mines and known mines
always are. -/
theorem obs_count_eq (M S Mi cands : List Cell) (hS : ∀ c ∈ S, c ∉ M)
    (hM : ∀ c ∈ Mi, c ∈ M) :
    countM M (cands.filter (fun i => !dropB S Mi i)) + cands.countP (badB S Mi)
      = countM M cands := by
  have h1 : countM M (cands.filter (fun i => !dropB S Mi i))
      = cands.countP (fun i => decide (i ∈ M) && !decide (i ∈ Mi)) := by
    unfold countM
    rw [List.countP_filter]
    apply List.countP_congr
    intro x hx
    by_cases hxM : x ∈ M
    · have hxS : x ∉ S := fun hs => hS x hs hxM
      simp [dropB, hxM, hxS]
    · simp [hxM]
  have h2 : cands.countP (badB S Mi)
      = cands.countP (fun i => decide (i ∈ M) && decide (i ∈ Mi)) := by
    apply List.countP_congr
    intro x hx
    by_cases hxMi : x ∈ Mi
    · have hxM := hM x hxMi
      have hxS : x ∉ S := fun hs => hS x hs hxM
      simp [badB, hxMi, hxM, hxS]
    · simp [badB, hxMi]
  rw [h1, h2]
  unfold countM
  rw [countP_split (fun i => decide (i ∈ M)) (fun i => decide (i ∈ Mi)) cands]
  omega

/-- The sentence constructed from a truthfully counted observation is true
of the board. -/
theorem obs_svalid (M S Mi : List Cell) (h w : Int) (cell : Cell) (count : Int)
    (hS : ∀ c ∈ S, c ∉ M) (hM : ∀ c ∈ Mi, c ∈ M)
    (hcount : count = (countM M (neighborsList h w cell) : Int)) :
    SValid M ⟨(neighborsList h w cell).filter (fun i => !dropB S Mi i),
              count - ((neighborsList h w cell).countP (badB S Mi) : Int)⟩ := by
  refine ⟨(nodup_neighborsList _ _ _).filter _, ?_⟩
  have hoce := obs_count_eq M S Mi (neighborsList h w cell) hS hM
  show (countM M ((neighborsList h w cell).filter
      (fun i => !dropB S Mi i)) : Int)
    = count - ((neighborsList h w cell).countP (badB S Mi) : Int)
  omega

theorem Valid.add_knowledge {M : List Cell} {ai : AI} (h : Valid M ai)
    {cell : Cell} {count : Int} (hcell : cell ∉ M)
    (hcount : count = trueCount M ai.height ai.width cell) :
    Valid M (ai.add_knowledge cell count) := by
  simp only [AI.add_knowledge]
  have h1 : Valid M { ai with
      moves_made := addCell ai.moves_made cell,
      safes := addCell ai.safes cell } := by
    refine ⟨?_, h.2.1, h.2.2⟩
    intro x hx
    rcases mem_addCell.mp hx with hx | hxc
    · exact h.1 x hx
    · rw [hxc]
      exact hcell
  set ai1 : AI := { ai with
      moves_made := addCell ai.moves_made cell,
      safes := addCell ai.safes cell } with hai1
  have hobs : SValid M ⟨(ai1.obsCellSet cell count).1,
      (ai1.obsCellSet cell count).2⟩ := by
    rw [obsCellSet_char]
    exact obs_svalid M ai1.safes ai1.mines ai1.height ai1.width cell count
      h1.1 h1.2.1 hcount
  have h2 : Valid M { ai1 with
      store := ai1.store ++ [(ai1.nextId,
        (⟨(ai1.obsCellSet cell count).1, (ai1.obsCellSet cell count).2⟩ :
          Sentence))],
      nextId := ai1.nextId + 1 } := by
    refine ⟨h1.1, h1.2.1, ?_⟩
    intro p hp
    rcases List.mem_append.mp hp with hp | hp
    · exact h1.2.2 p hp
    · simp only [List.mem_singleton] at hp
      subst hp
      exact hobs
  set ai2 : AI := { ai1 with
      store := ai1.store ++ [(ai1.nextId,
        (⟨(ai1.obsCellSet cell count).1, (ai1.obsCellSet cell count).2⟩ :
          Sentence))],
      nextId := ai1.nextId + 1 } with hai2
  have h3 : Valid M (ai2.check ai1.nextId) := h2.check ai1.nextId
  set ai3 : AI := ai2.check ai1.nextId with hai3
  have h4 : Valid M { ai3 with live := ai3.live ++ [ai1.nextId] } := h3
  set ai4 : AI := { ai3 with live := ai3.live ++ [ai1.nextId] } with hai4
  have h5 : Valid M (ai4.safes.foldl AI.mark_safe ai4) :=
    foldl_preserve _ (fun a x hx ha => ha.markSafe (h4.1 x hx)) _ h4
  set ai5 : AI := ai4.safes.foldl AI.mark_safe ai4 with hai5
  have h6 : Valid M (ai5.mines.foldl AI.mark_mine ai5) :=
    foldl_preserve _ (fun a x hx ha => ha.markMine (h5.2.1 x hx)) _ h5
  exact (h6.scanPhase).subsetPhase

theorem valid_init (M : List Cell) (h w : Int) : Valid M (AI.init h w) :=
  ⟨fun x hx => absurd hx (List.not_mem_nil x),
   fun x hx => absurd hx (List.not_mem_nil x),
   fun p hp => absurd hp (List.not_mem_nil p)⟩

/-- Every truthful observation sequence leads to a sound state: the
invariant `Valid` holds, and the board dimensions are unchanged. -/
theorem runTrace_valid (M : List Cell) (h w : Int) (obs : List (Cell × Int))
    (ht : TruthfulTrace M h w obs) :
    Valid M (runTrace h w obs) ∧ (runTrace h w obs).height = h ∧
      (runTrace h w obs).width = w := by
  unfold runTrace
  refine @foldl_preserve (Cell × Int) AI
    (fun x => Valid M x ∧ x.height = h ∧ x.width = w)
    (fun a p => a.add_knowledge p.1 p.2) obs ?_ (AI.init h w)
    ⟨valid_init M h w, rfl, rfl⟩
  intro a p hp ha
  obtain ⟨hv, hh, hw⟩ := ha
  obtain ⟨hp1, hp2⟩ := ht.2 p hp
  have hcount : p.2 = trueCount M a.height a.width p.1 := by
    rw [hh, hw]
    exact hp2
  have hexp := expands_add_knowledge a p.1 p.2
  refine ⟨hv.add_knowledge hp1 hcount, ?_, ?_⟩
  · rw [← hexp.2.2.2.1]
    exact hh
  · rw [← hexp.2.2.2.2]
    exact hw

/-- Claim C4: under the stated precondition (truthful counts, distinct safe
observed cells), after every sequence of `add_knowledge` calls the `safes`
and `mines` sets are disjoint.  (Every prefix of a truthful trace is itself
truthful, so this covers the state after each intermediate call as well.) -/
theorem safes_mines_disjoint (M : List Cell) (h w : Int)
    (obs : List (Cell × Int)) (ht : TruthfulTrace M h w obs) :
    ∀ c ∈ (runTrace h w obs).safes, c ∉ (runTrace h w obs).mines := by
  intro c hc hm
  have hv := (runTrace_valid M h w obs ht).1
  exact hv.1 c hc (hv.2.1 c hm)

/-- The board and trace used by the witnesses: a 2×2 board with one mine at
`(1,1)`, observing the safe corner `(0,0)` whose true count is 1. -/
def obsW : List (Cell × Int) := [((0, 0), 1)]

/-- The mine set of the witness board. -/
def mW : List Cell := [(1, 1)]

/-- Witness for `safes_mines_disjoint` on the concrete trace `obsW`. -/
theorem safes_mines_disjoint_witness :
    TruthfulTrace mW 2 2 obsW ∧ (0, 0) ∈ (runTrace 2 2 obsW).safes ∧
      (0, 0) ∉ (runTrace 2 2 obsW).mines :=
  ⟨by decide, by decide,
   safes_mines_disjoint mW 2 2 obsW (by decide) (0, 0) (by decide)⟩

/-- Claim C5: under the stated precondition, after every sequence of
`add_knowledge` calls every sentence in the knowledge list satisfies
`0 ≤ count ≤ |cells|`. -/
theorem knowledge_counts_bounded (M : List Cell) (h w : Int)
    (obs : List (Cell × Int)) (ht : TruthfulTrace M h w obs) :
    ∀ s ∈ (runTrace h w obs).liveSentences,
      0 ≤ s.count ∧ s.count ≤ (s.cells.length : Int) := by
  intro s hs
  obtain ⟨id, hid, hgs⟩ := List.mem_map.mp hs
  have hv := (runTrace_valid M h w obs ht).1
  have hsv := valid_getS hv id
  rw [← hgs]
  have hle := countM_le_length M ((runTrace h w obs).getS id).cells
  have hc := hsv.2
  omega

/-- Witness for `knowledge_counts_bounded` on the concrete trace `obsW`,
whose final knowledge list holds the sentence
`{(0,1),(1,0),(1,1)} = 1`. -/
theorem knowledge_counts_bounded_witness :
    TruthfulTrace mW 2 2 obsW ∧
      Sentence.mk [(0, 1), (1, 0), (1, 1)] 1 ∈ (runTrace 2 2 obsW).liveSentences ∧
      (0 ≤ (Sentence.mk [(0, 1), (1, 0), (1, 1)] 1).count ∧
        (Sentence.mk [(0, 1), (1, 0), (1, 1)] 1).count
          ≤ ((Sentence.mk [(0, 1), (1, 0), (1, 1)] 1).cells.length : Int)) :=
  ⟨by decide, by decide,
   knowledge_counts_bounded mW 2 2 obsW (by decide) _ (by decide)⟩

theorem removeFirstEq_length (st : List (Nat × Sentence)) (v : Sentence) :
    ∀ l : List Nat, (removeFirstEq st v l).length ≤ l.length
  | [] => Nat.le_refl 0
  | id :: rest => by
      unfold removeFirstEq
      split
      · exact Nat.le_succ rest.length
      · simp only [List.length_cons]
        exact Nat.succ_le_succ (removeFirstEq_length st v rest)

theorem foldl_live_eq {α : Type} {f : AI → α → AI}
    (hf : ∀ a x, (f a x).live = a.live) :
    ∀ (l : List α) (a : AI), (l.foldl f a).live = a.live
  | [], _ => rfl
  | x :: xs, a => by
      rw [List.foldl_cons, foldl_live_eq hf xs (f a x), hf a x]

theorem live_objMarkSafe (ai : AI) (id : Nat) (c : Cell) :
    (ai.objMarkSafe id c).live = ai.live := rfl

theorem live_objMarkMine (ai : AI) (id : Nat) (c : Cell) :
    (ai.objMarkMine id c).live = ai.live := rfl

theorem live_scanSafeStep (id : Nat) (a : AI) (c : Cell) :
    (AI.objMarkSafe { a with safes := addCell a.safes c } id c).live = a.live :=
  rfl

theorem live_scanMineStep (id : Nat) (a : AI) (c : Cell) :
    (AI.objMarkMine { a with mines := addCell a.mines c } id c).live = a.live :=
  rfl

theorem live_mark_safe (ai : AI) (c : Cell) : (ai.mark_safe c).live = ai.live := by
  simp only [AI.mark_safe]
  exact foldl_live_eq (fun a id => live_objMarkSafe a id c) _ _

theorem live_mark_mine (ai : AI) (c : Cell) : (ai.mark_mine c).live = ai.live := by
  simp only [AI.mark_mine]
  exact foldl_live_eq (fun a id => live_objMarkMine a id c) _ _

theorem live_checkSafes (ai : AI) (id : Nat) :
    (ai.checkSafes id).live = ai.live := by
  unfold AI.checkSafes
  cases (ai.getS id).known_safes with
  | none => rfl
  | some cs => exact foldl_live_eq live_mark_safe cs ai

theorem live_checkMines (ai : AI) (id : Nat) :
    (ai.checkMines id).live = ai.live := by
  unfold AI.checkMines
  cases (ai.getS id).known_mines with
  | none => rfl
  | some cs => exact foldl_live_eq live_mark_mine cs ai

theorem live_check (ai : AI) (id : Nat) : (ai.check id).live = ai.live := by
  simp only [AI.check]
  rw [live_checkMines, live_checkSafes]

theorem live_scanMark (ai : AI) (id : Nat) : (ai.scanMark id).live = ai.live := by
  simp only [AI.scanMark]
  split
  · exact foldl_live_eq (live_scanSafeStep id) _ _
  · split
    · exact foldl_live_eq (live_scanMineStep id) _ _
    · rfl

theorem scanStep_length (ai : AI) (id : Nat) :
    (ai.scanStep id).live.length ≤ ai.live.length := by
  simp only [AI.scanStep]
  split
  · show (removeFirstEq _ _ (ai.scanMark id).live).length ≤ ai.live.length
    calc (removeFirstEq _ _ (ai.scanMark id).live).length
        ≤ (ai.scanMark id).live.length := removeFirstEq_length _ _ _
      _ = ai.live.length := by rw [live_scanMark]
  · rw [live_scanMark]

theorem subsetApply_length (ai : AI) (so ss : Sentence) :
    (ai.subsetApply so ss).live.length ≤ ai.live.length + 1 := by
  simp only [AI.subsetApply]
  rw [live_check]
  split
  · show ((removeFirstEq _ _ _ : List Nat) ++ [ai.nextId]).length
      ≤ ai.live.length + 1
    rw [List.length_append]
    have h1 := removeFirstEq_length
      (ai.store ++ [(ai.nextId, derivedSentence so ss)]) ss ai.live
    simp only [List.length_singleton]
    omega
  · simp

theorem subsetStep_length (ai : AI) (oid sid : Nat) :
    (ai.subsetStep oid sid).live.length ≤ ai.live.length + 1 := by
  simp only [AI.subsetStep]
  split
  · exact Nat.le_succ _
  · split
    · exact subsetApply_length _ _ _
    · exact Nat.le_succ _

theorem foldl_length_bound {α : Type} {f : AI → α → AI} (k : Nat)
    (hf : ∀ a x, (f a x).live.length ≤ a.live.length + k) :
    ∀ (l : List α) (a : AI),
      (l.foldl f a).live.length ≤ a.live.length + k * l.length
  | [], a => by simp
  | x :: xs, a => by
      have h1 := foldl_length_bound k hf xs (f a x)
      have h2 := hf a x
      rw [List.foldl_cons]
      simp only [List.length_cons, Nat.mul_succ]
      omega

theorem scanPhase_length (ai : AI) :
    ai.scanPhase.live.length ≤ ai.live.length := by
  unfold AI.scanPhase
  have := foldl_length_bound 0
    (fun a id => by simpa using scanStep_length a id) ai.live ai
  simpa using this

theorem subsetPhase_length (ai : AI) :
    ai.subsetPhase.live.length
      ≤ ai.live.length + ai.live.length * ai.live.length := by
  unfold AI.subsetPhase
  exact foldl_length_bound ai.live.length
    (fun a oid => by
      have := foldl_length_bound 1
        (fun a2 sid => subsetStep_length a2 oid sid) ai.live a
      simpa using this) ai.live ai

/-- The knowledge list grows by at most `1 + (n + 1)²` sentences per call,
where `n` is the number of active sentences beforehand: the scan loop only
removes, and the subset-difference loop appends at most once per ordered
pair of snapshot entries. -/
theorem add_knowledge_live_bound (ai : AI) (cell : Cell) (count : Int) :
    (ai.add_knowledge cell count).live.length
      ≤ (ai.live.length + 1)
        + (ai.live.length + 1) * (ai.live.length + 1) := by
  simp only [AI.add_knowledge]
  set ai1 : AI := { ai with
      moves_made := addCell ai.moves_made cell,
      safes := addCell ai.safes cell } with hai1
  set ai2 : AI := { ai1 with
      store := ai1.store ++ [(ai1.nextId,
        (⟨(ai1.obsCellSet cell count).1, (ai1.obsCellSet cell count).2⟩ :
          Sentence))],
      nextId := ai1.nextId + 1 } with hai2
  set ai3 : AI := ai2.check ai1.nextId with hai3
  set ai4 : AI := { ai3 with live := ai3.live ++ [ai1.nextId] } with hai4
  set ai5 : AI := ai4.safes.foldl AI.mark_safe ai4 with hai5
  set ai6 : AI := ai5.mines.foldl AI.mark_mine ai5 with hai6
  have l3 : ai3.live = ai.live := by
    rw [hai3, live_check]
  have l4 : ai4.live.length = ai.live.length + 1 := by
    rw [hai4]
    simp [l3]
  have l5 : ai5.live = ai4.live := by
    rw [hai5]
    exact foldl_live_eq live_mark_safe _ _
  have l6 : ai6.live = ai4.live := by
    rw [hai6, foldl_live_eq live_mark_mine, l5]
  have hscan := scanPhase_length ai6
  have hsub := subsetPhase_length ai6.scanPhase
  have hs1 : ai6.scanPhase.live.length ≤ ai.live.length + 1 := by
    rw [l6, l4] at hscan
    exact hscan
  calc ai6.scanPhase.subsetPhase.live.length
      ≤ ai6.scanPhase.live.length
        + ai6.scanPhase.live.length * ai6.scanPhase.live.length := hsub
    _ ≤ (ai.live.length + 1) + (ai.live.length + 1) * (ai.live.length + 1) :=
        Nat.add_le_add hs1 (Nat.mul_le_mul hs1 hs1)

/-- Claim C9: `add_knowledge` is a total function of the engine state — from
any state, in particular any state reached by a finite sequence of
observations, it returns a result.  Every loop in the Python source iterates
over a finite snapshot of a list or set, which the embedding renders as
structurally terminating folds; the definition of `AI.add_knowledge` is
accepted by Lean without any partiality, which is the formal content of
termination.  The bound `add_knowledge_live_bound` proved below additionally
quantifies the loop work: the knowledge list after a call holds at most
`(n+1) + (n+1)²` sentences, `n` being the number of active sentences
before. -/
theorem add_knowledge_total (h w : Int) (obs : List (Cell × Int)) (cell : Cell)
    (count : Int) : ∃ a : AI, (runTrace h w obs).add_knowledge cell count = a
      ∧ a.live.length ≤ ((runTrace h w obs).live.length + 1)
        + ((runTrace h w obs).live.length + 1)
          * ((runTrace h w obs).live.length + 1) :=
  ⟨_, rfl, add_knowledge_live_bound (runTrace h w obs) cell count⟩
